import Mathlib

/-!
Verification of the siren audio engine sources against their specification.

The embedded code is the generated C in `out/main.c` (the functions
`fill_MINUS_sine__Array__float_MUL_` and `main`) together with the SDL
binding header `src/siren_audio.h` (`siren_queue_audio`, `siren_load_wav`).

Modelling conventions:
- C `float` arithmetic is idealised as real arithmetic (`ℝ`); the WAV
  loader path only divides 16-bit integers by the power of two 32768, which
  is exact in binary floating point, so that path is modelled over `ℚ`.
- The audio buffer is a total function `ℕ → ℝ`; every store performed by
  the code stays below the allocated length `buf_size`, so the in-bounds
  assertion of `Array_aset_BANG___float` never fires.
- Carp `Float.mod` is C `fmodf`, the truncated remainder.
- The SDL device is an external sink: the runtime-loop model tracks the
  queued byte count exactly, lets the device drain an arbitrary amount
  between iterations (during the 1 ms sleep), and none while the
  single-threaded enqueue phase runs.
-/

/-- Engine constant `sample-rate` from `main.c`: 44100. -/
def sample_rate : ℕ := 44100

/-- Engine constant `buf-frames` from `main.c`: 512. -/
def buf_frames : ℕ := 512

/-- Engine constant `channels` from `main.c`: 2. -/
def channels : ℕ := 2

/-- Engine constant `buf-size` from `main.c`: `buf-frames * channels`. -/
def buf_size : ℕ := buf_frames * channels

/-- Truncation toward zero on the reals, as the C cast in `fmodf`. -/
noncomputable def rtrunc (t : ℝ) : ℤ :=
  if 0 ≤ t then ⌊t⌋ else ⌈t⌉

/-- Carp `Float.mod` is C `fmodf x y = x - y * trunc (x / y)`. -/
noncomputable def Float_mod (x y : ℝ) : ℝ :=
  x - y * rtrunc (x / y)

/-- Phase step per sample computed at the top of `fill-sine`:
`2π * (freq / sample-rate)`. In the C source `freq` is an `int`. -/
noncomputable def phase_step (freq : ℤ) : ℝ :=
  2 * Real.pi * ((freq : ℝ) / (sample_rate : ℝ))

/-- The while loop of `fill-sine`: at frame index `i < buf-frames` it
computes `s = sin (phase + step * i)` and stores `s` at buffer indices
`i * 2` and `i * 2 + 1`, then continues with `i + 1`. -/
noncomputable def fill_sine_loop (phase step : ℝ) (i : ℕ) (buf : ℕ → ℝ) : ℕ → ℝ :=
  if i < buf_frames then
    let s := Real.sin (phase + step * (i : ℝ))
    fill_sine_loop phase step (i + 1)
      (Function.update (Function.update buf (i * 2) s) (i * 2 + 1) s)
  else
    buf
termination_by buf_frames - i
decreasing_by omega

/-- `fill-sine` from `main.c`: runs the fill loop from frame 0 and returns
the updated buffer together with the outgoing phase
`Float.mod (phase + step * buf-frames) (2π)`. -/
noncomputable def fill_sine (buf : ℕ → ℝ) (freq : ℤ) (phase : ℝ) : (ℕ → ℝ) × ℝ :=
  let step := phase_step freq
  (fill_sine_loop phase step 0 buf,
   Float_mod (phase + step * (buf_frames : ℝ)) (2 * Real.pi))

/-- Modelled from the spec: the mathematical modulus `x mod 2π` taking
values in `[0, 2π)`, used by the contract sentence for the outgoing phase.
This is the spec-side definition to be compared with the `Float_mod` call
of the code. -/
noncomputable def spec_phase_mod (x : ℝ) : ℝ :=
  x - 2 * Real.pi * ⌊x / (2 * Real.pi)⌋

/-- Phase state threaded through consecutive `fill-sine` calls: each call
receives the phase returned by the previous one (the returned phase does
not depend on the buffer argument). -/
noncomputable def phase_seq (freq : ℤ) (φ0 : ℝ) : ℕ → ℝ
  | 0 => φ0
  | n + 1 => (fill_sine (fun _ => 0) freq (phase_seq freq φ0 n)).2

/-- Sample `k` of the joined mono output of the consecutive fills: frame
`k % buf-frames` (left channel, index doubled) of call number
`k / buf-frames`. -/
noncomputable def cat_sample (freq : ℤ) (φ0 : ℝ) (k : ℕ) : ℝ :=
  (fill_sine (fun _ => 0) freq (phase_seq freq φ0 (k / buf_frames))).1
    (2 * (k % buf_frames))

/-- The runtime state of `main`: the reused audio buffer and the phase
variable. State 0 is right after initialisation (`Array.allocate buf-size`
with arbitrary contents `init`, `phase = 0.0`); each later state is one
`fill-sine buf 440 phase` call of the loop body. -/
noncomputable def runtime_state (init : ℕ → ℝ) : ℕ → (ℕ → ℝ) × ℝ
  | 0 => (init, 0)
  | n + 1 => fill_sine (runtime_state init n).1 440 (runtime_state init n).2

/-- The `n`-th call `siren_queue_audio dev (raw buf) buf-size` of the
runtime loop: the buffer contents just filled, and the float count
`buf-size` passed to the binding. -/
noncomputable def runtime_enqueued (init : ℕ → ℝ) (n : ℕ) : (ℕ → ℝ) × ℕ :=
  ((runtime_state init (n + 1)).1, buf_size)

/-- High-water mark computed inside the loop condition of `main`:
`(buf-size * 4) * 4` bytes. -/
def high_water : ℕ := buf_size * 4 * 4

/-- Bytes added to the device queue by one
`siren_queue_audio dev buf buf-size` call: `buf-size` floats of 4 bytes. -/
def bytes_per_buffer : ℕ := buf_size * 4

/-- Observable actions of the runtime loop against the SDL device. -/
inductive AudioEvent where
  | enq : ℕ → AudioEvent
  | sleep : ℕ → AudioEvent
deriving DecidableEq

/-- The inner while loop of `main` on the queued byte count: while the
device reports fewer than `high-water` bytes, fill and enqueue one buffer
(adding `bytes-per-buffer` bytes); the device does not drain during this
single-threaded phase. Returns the queued byte count at loop exit. -/
def inner_loop (q : ℕ) : ℕ :=
  if q < high_water then inner_loop (q + bytes_per_buffer) else q
termination_by high_water - q
decreasing_by
  simp only [bytes_per_buffer, buf_size, buf_frames, channels] at *
  omega

/-- The events the inner loop performs, in order. -/
def inner_events (q : ℕ) : List AudioEvent :=
  if q < high_water then AudioEvent.enq buf_size :: inner_events (q + bytes_per_buffer)
  else []
termination_by high_water - q
decreasing_by
  simp only [bytes_per_buffer, buf_size, buf_frames, channels] at *
  omega

/-- One iteration of the outer `while true` loop of `main`: the inner
enqueue loop followed by `SDL_Delay 1`. -/
def iter_events (q : ℕ) : List AudioEvent :=
  inner_events q ++ [AudioEvent.sleep 1]

/-- Number of buffers one iteration enqueues from queued byte count `q`. -/
def enq_count (q : ℕ) : ℕ :=
  (high_water - q + (bytes_per_buffer - 1)) / bytes_per_buffer

/-- Queued byte counts observed right after the enqueue phase of each
iteration, when the device drains `d` bytes during the sleep that follows
(the drain list gives one value per iteration). -/
def phase_ends (q : ℕ) : List ℕ → List ℕ
  | [] => []
  | d :: ds => inner_loop q :: phase_ends (inner_loop q - d) ds

/-- Byte count handed to `SDL_QueueAudio` by `siren_queue_audio`:
`(Uint32)(len * sizeof(float))` with `sizeof(float) = 4`, i.e. the
product reduced modulo `2^32` by the unsigned cast (`len` is a C `int`). -/
def siren_queue_audio_bytes (len : ℤ) : ℤ :=
  (len * 4) % 2 ^ 32

/-- The fields of `SDL_AudioSpec` inspected by `siren_load_wav`. -/
structure AudioSpecM where
  freq : ℤ
  channels : ℕ
  format : ℕ
deriving DecidableEq

/-- Outcome of a successful `SDL_LoadWAV`: the parsed spec and the raw
data bytes (`sdl_buf` of length `sdl_len`). -/
structure WavData where
  spec : AudioSpecM
  bytes : List (Fin 256)

/-- SDL constant `AUDIO_S16LSB`. -/
def AUDIO_S16LSB : ℕ := 0x8010

/-- Reading `((Sint16 *) sdl_buf)[i]` on the little-endian host the
program targets: the low byte plus 256 times the high byte, reinterpreted
as a signed 16-bit value. -/
def sint16_of_bytes (lo hi : Fin 256) : ℤ :=
  let u : ℕ := lo.val + 256 * hi.val
  if u < 32768 then (u : ℤ) else (u : ℤ) - 65536

/-- `siren_load_wav` from `siren_audio.h`. The external world enters as
`load` (the result of `SDL_LoadWAV`: `none` on IO failure) and
`malloc_ok` (whether the `malloc` of the float array succeeds). On load
failure, on any spec mismatch with mono 16-bit 44100 Hz, or on malloc
failure, the empty array is returned; otherwise
`n = sdl_len / sizeof(Sint16)` samples are converted by `src[i] / 32768`.
The exact power-of-two division lets the floats be modelled as `ℚ`. -/
def siren_load_wav (load : Option WavData) (malloc_ok : Bool) : List ℚ :=
  match load with
  | none => []
  | some w =>
    if w.spec.freq ≠ 44100 ∨ w.spec.channels ≠ 1 ∨ w.spec.format ≠ AUDIO_S16LSB then
      []
    else if malloc_ok = false then
      []
    else
      (List.range (w.bytes.length / 2)).map (fun i =>
        (sint16_of_bytes (w.bytes.getD (2 * i) 0) (w.bytes.getD (2 * i + 1) 0) : ℚ)
          / 32768)

section FillSineLemmas

lemma buf_size_eq : buf_size = 2 * buf_frames := by
  norm_num [buf_size, buf_frames, channels]

lemma phase_step_nonneg {freq : ℤ} (hf : 0 ≤ freq) : 0 ≤ phase_step freq := by
  unfold phase_step
  have h1 : (0 : ℝ) ≤ (freq : ℝ) := by exact_mod_cast hf
  positivity

lemma Float_mod_of_nonneg (x : ℝ) (hx : 0 ≤ x) :
    Float_mod x (2 * Real.pi) = x - 2 * Real.pi * ⌊x / (2 * Real.pi)⌋ := by
  unfold Float_mod rtrunc
  have h : 0 ≤ x / (2 * Real.pi) := div_nonneg hx (by positivity)
  rw [if_pos h]

lemma Float_mod_eq_spec_mod (x : ℝ) (hx : 0 ≤ x) :
    Float_mod x (2 * Real.pi) = spec_phase_mod x := by
  rw [Float_mod_of_nonneg x hx]; rfl

lemma Float_mod_nonneg (x : ℝ) (hx : 0 ≤ x) : 0 ≤ Float_mod x (2 * Real.pi) := by
  rw [Float_mod_of_nonneg x hx]
  have h2p : (0 : ℝ) < 2 * Real.pi := by positivity
  have hfl : (⌊x / (2 * Real.pi)⌋ : ℝ) ≤ x / (2 * Real.pi) := Int.floor_le _
  have := (mul_le_mul_of_nonneg_left hfl (le_of_lt h2p))
  rw [mul_div_cancel₀ x (ne_of_gt h2p)] at this
  linarith

lemma Float_mod_self_of_lt (x : ℝ) (h0 : 0 ≤ x) (h1 : x < 2 * Real.pi) :
    Float_mod x (2 * Real.pi) = x := by
  rw [Float_mod_of_nonneg x h0]
  have h2p : (0 : ℝ) < 2 * Real.pi := by positivity
  have : ⌊x / (2 * Real.pi)⌋ = 0 := by
    rw [Int.floor_eq_zero_iff]
    constructor
    · exact div_nonneg h0 (le_of_lt h2p)
    · rw [div_lt_one h2p]; exact h1
  rw [this]
  simp

/-- Closed form of the fill loop: starting at frame `i`, indices from
`2 i` up to `2 * buf-frames - 1` hold the sine of their frame, everything
else is untouched. -/
lemma fill_sine_loop_apply (phase step : ℝ) :
    ∀ (n i : ℕ) (buf : ℕ → ℝ) (j : ℕ), buf_frames - i ≤ n →
      fill_sine_loop phase step i buf j =
        if 2 * i ≤ j ∧ j < 2 * buf_frames then
          Real.sin (phase + step * ((j / 2 : ℕ) : ℝ))
        else buf j := by
  intro n
  induction n with
  | zero =>
    intro i buf j hn
    have hi : ¬ i < buf_frames := by omega
    rw [fill_sine_loop, if_neg hi, if_neg (by omega)]
  | succ n ih =>
    intro i buf j hn
    by_cases hi : i < buf_frames
    · rw [fill_sine_loop, if_pos hi]
      rw [ih (i + 1) _ j (by omega)]
      by_cases hj : 2 * i ≤ j ∧ j < 2 * buf_frames
      · rw [if_pos hj]
        by_cases hj2 : 2 * (i + 1) ≤ j
        · rw [if_pos ⟨hj2, hj.2⟩]
        · rw [if_neg (fun hq => hj2 hq.1)]
          have hcase : j = i * 2 ∨ j = i * 2 + 1 := by omega
          have hdiv : j / 2 = i := by omega
          rcases hcase with hc | hc
          · subst hc
            rw [Function.update_noteq (by omega), Function.update_same, hdiv]
          · subst hc
            rw [Function.update_same, hdiv]
      · rw [if_neg hj, if_neg (by omega)]
        rw [Function.update_noteq (by omega), Function.update_noteq (by omega)]
    · rw [fill_sine_loop, if_neg hi, if_neg (by omega)]

/-- Pointwise description of the buffer produced by `fill-sine`. -/
lemma fill_sine_apply (buf : ℕ → ℝ) (freq : ℤ) (phase : ℝ) (j : ℕ) :
    (fill_sine buf freq phase).1 j =
      if j < 2 * buf_frames then
        Real.sin (phase + phase_step freq * ((j / 2 : ℕ) : ℝ))
      else buf j := by
  have h := fill_sine_loop_apply phase (phase_step freq) buf_frames 0 buf j (by omega)
  simpa using h

lemma fill_sine_phase (buf : ℕ → ℝ) (freq : ℤ) (phase : ℝ) :
    (fill_sine buf freq phase).2 =
      Float_mod (phase + phase_step freq * (buf_frames : ℝ)) (2 * Real.pi) := rfl

end FillSineLemmas

lemma phase_seq_normal_form (freq : ℤ) (φ0 : ℝ) (hf : 0 ≤ freq) (h0 : 0 ≤ φ0) :
    ∀ n : ℕ, 0 ≤ phase_seq freq φ0 n ∧
      ∃ m : ℤ, phase_seq freq φ0 n =
        φ0 + phase_step freq * ((buf_frames : ℝ) * (n : ℝ)) - 2 * Real.pi * (m : ℝ) := by
  intro n
  induction n with
  | zero =>
    refine ⟨h0, 0, ?_⟩
    simp [phase_seq]
  | succ n ih =>
    obtain ⟨hpos, m, hm⟩ := ih
    have hstep : 0 ≤ phase_step freq := phase_step_nonneg hf
    have harg : 0 ≤ phase_seq freq φ0 n + phase_step freq * (buf_frames : ℝ) :=
      add_nonneg hpos (mul_nonneg hstep (by positivity))
    have hrec : phase_seq freq φ0 (n + 1) =
        Float_mod (phase_seq freq φ0 n + phase_step freq * (buf_frames : ℝ))
          (2 * Real.pi) := by
      rw [phase_seq, fill_sine_phase]
    constructor
    · rw [hrec]
      exact Float_mod_nonneg _ harg
    · refine ⟨m + ⌊(phase_seq freq φ0 n + phase_step freq * (buf_frames : ℝ)) /
        (2 * Real.pi)⌋, ?_⟩
      rw [hrec, Float_mod_of_nonneg _ harg, hm]
      push_cast
      ring

section LoopLemmas

lemma high_water_eq : high_water = 16384 := by
  norm_num [high_water, buf_size, buf_frames, channels]

lemma bytes_per_buffer_eq : bytes_per_buffer = 4096 := by
  norm_num [bytes_per_buffer, buf_size, buf_frames, channels]

lemma enq_count_eq (q : ℕ) : enq_count q = (16384 - q + 4095) / 4096 := by
  rw [enq_count, high_water_eq, bytes_per_buffer_eq]

lemma inner_loop_closed_aux :
    ∀ (n q : ℕ), high_water - q ≤ n →
      inner_loop q = q + bytes_per_buffer * enq_count q := by
  intro n
  induction n with
  | zero =>
    intro q hq
    rw [high_water_eq] at hq
    rw [inner_loop, if_neg (by rw [high_water_eq]; omega), enq_count_eq,
      bytes_per_buffer_eq]
    omega
  | succ n ih =>
    intro q hq
    by_cases h : q < high_water
    · rw [inner_loop, if_pos h]
      rw [ih (q + bytes_per_buffer) (by rw [bytes_per_buffer_eq]; omega)]
      rw [high_water_eq] at h
      rw [enq_count_eq, enq_count_eq, bytes_per_buffer_eq]
      omega
    · rw [inner_loop, if_neg h, enq_count_eq, bytes_per_buffer_eq]
      rw [high_water_eq] at h
      omega

lemma inner_loop_closed (q : ℕ) :
    inner_loop q = q + bytes_per_buffer * enq_count q :=
  inner_loop_closed_aux high_water q (by omega)

lemma inner_events_closed_aux :
    ∀ (n q : ℕ), high_water - q ≤ n →
      inner_events q = List.replicate (enq_count q) (AudioEvent.enq buf_size) := by
  intro n
  induction n with
  | zero =>
    intro q hq
    rw [high_water_eq] at hq
    rw [inner_events, if_neg (by rw [high_water_eq]; omega)]
    have hc : enq_count q = 0 := by rw [enq_count_eq]; omega
    rw [hc, List.replicate_zero]
  | succ n ih =>
    intro q hq
    by_cases h : q < high_water
    · rw [inner_events, if_pos h]
      rw [ih (q + bytes_per_buffer) (by rw [bytes_per_buffer_eq]; omega)]
      rw [high_water_eq] at h
      have hc : enq_count q = enq_count (q + bytes_per_buffer) + 1 := by
        rw [enq_count_eq, enq_count_eq, bytes_per_buffer_eq]
        omega
      rw [hc, List.replicate_succ]
    · rw [inner_events, if_neg h]
      have hc : enq_count q = 0 := by
        rw [high_water_eq] at h
        rw [enq_count_eq]
        omega
      rw [hc, List.replicate_zero]

lemma inner_events_closed (q : ℕ) :
    inner_events q = List.replicate (enq_count q) (AudioEvent.enq buf_size) :=
  inner_events_closed_aux high_water q (by omega)

lemma inner_loop_ge_high_water (q : ℕ) : high_water ≤ inner_loop q := by
  rw [inner_loop_closed, enq_count_eq, bytes_per_buffer_eq, high_water_eq]
  omega

lemma inner_loop_lt (q : ℕ) (h : q < high_water + bytes_per_buffer) :
    inner_loop q < high_water + bytes_per_buffer := by
  rw [inner_loop_closed, enq_count_eq, bytes_per_buffer_eq]
  rw [high_water_eq, bytes_per_buffer_eq] at *
  omega

lemma phase_ends_mem :
    ∀ (ds : List ℕ) (q : ℕ), q < high_water + bytes_per_buffer →
      ∀ x ∈ phase_ends q ds,
        high_water ≤ x ∧ x < high_water + bytes_per_buffer := by
  intro ds
  induction ds with
  | nil =>
    intro q hq x hx
    simp [phase_ends] at hx
  | cons d ds ih =>
    intro q hq x hx
    rw [phase_ends, List.mem_cons] at hx
    rcases hx with hx | hx
    · subst hx
      exact ⟨inner_loop_ge_high_water q, inner_loop_lt q hq⟩
    · exact ih (inner_loop q - d)
        (by have := inner_loop_lt q hq; omega) x hx

end LoopLemmas

lemma sint16_of_bytes_bounds (lo hi : Fin 256) :
    -32768 ≤ sint16_of_bytes lo hi ∧ sint16_of_bytes lo hi < 32768 := by
  unfold sint16_of_bytes
  have hl := lo.isLt
  have hh := hi.isLt
  dsimp only
  split <;> omega

/-- C1: the sine fill writes `sin (φ₀ + i·Δ)` into both samples of frame
`i` for every frame `i < buf-frames`, with `Δ = 2π·f/sample-rate`, and
returns `(φ₀ + buf-frames·Δ) mod 2π` (mathematical modulus), for any
frequency `f ≥ 0` and incoming phase `φ₀ ∈ [0, 2π)`. -/
theorem fill_sine_frame_values_and_phase (buf : ℕ → ℝ) (freq : ℤ) (φ : ℝ)
    (hf : 0 ≤ freq) (h0 : 0 ≤ φ) (h2 : φ < 2 * Real.pi) :
    (∀ i, i < buf_frames →
      (fill_sine buf freq φ).1 (2 * i) = Real.sin (φ + (i : ℝ) * phase_step freq) ∧
      (fill_sine buf freq φ).1 (2 * i + 1) = Real.sin (φ + (i : ℝ) * phase_step freq)) ∧
    (fill_sine buf freq φ).2 = spec_phase_mod (φ + (buf_frames : ℝ) * phase_step freq) := by
  constructor
  · intro i hi
    have hd1 : (2 * i) / 2 = i := by omega
    have hd2 : (2 * i + 1) / 2 = i := by omega
    constructor
    · rw [fill_sine_apply, if_pos (by omega), hd1, mul_comm (phase_step freq) (i : ℝ)]
    · rw [fill_sine_apply, if_pos (by omega), hd2, mul_comm (phase_step freq) (i : ℝ)]
  · rw [fill_sine_phase]
    have harg : 0 ≤ φ + phase_step freq * (buf_frames : ℝ) :=
      add_nonneg h0 (mul_nonneg (phase_step_nonneg hf) (by positivity))
    rw [Float_mod_eq_spec_mod _ harg, mul_comm (phase_step freq) ((buf_frames : ℕ) : ℝ)]

/-- Witness for C1 at `freq = 440`, `φ₀ = 0`, zero initial buffer. -/
theorem fill_sine_frame_values_and_phase_witness :
    (0 : ℤ) ≤ 440 ∧ (0 : ℝ) ≤ 0 ∧ (0 : ℝ) < 2 * Real.pi ∧
    (fill_sine (fun _ => 0) 440 0).2 =
      spec_phase_mod (0 + (buf_frames : ℝ) * phase_step 440) := by
  have hpi : (0 : ℝ) < 2 * Real.pi := by positivity
  refine ⟨by norm_num, le_refl 0, hpi, ?_⟩
  exact (fill_sine_frame_values_and_phase (fun _ => 0) 440 0 (by norm_num)
    (le_refl 0) hpi).2

/-- C2 counterexample: the fill is not mono of length `buf-frames`; the
element at index `buf-frames = 512` is overwritten (from 0 to 1 here), so
elements at indices at or above `buf-frames` do not stay unchanged. -/
theorem fill_sine_not_mono_counterexample :
    (fill_sine (fun _ => 0) 0 (Real.pi / 2)).1 buf_frames = 1 ∧
    (1 : ℝ) ≠ 0 := by
  constructor
  · rw [fill_sine_apply, if_pos (by norm_num [buf_frames])]
    have hstep : phase_step 0 = 0 := by
      unfold phase_step
      norm_num
    rw [hstep]
    norm_num
  · norm_num

/-- C2 amended: the fill treats the buffer as interleaved stereo of length
`2 * buf-frames`: it writes the frame sample into the two indices `2 i`
and `2 i + 1` of each frame `i < buf-frames` (so indices
`0 .. 2·buf-frames − 1` all carry `sin (φ₀ + (j / 2)·Δ)`), and every
element at index at or above `2 * buf-frames` is left unchanged. -/
theorem fill_sine_stereo_frame_effect (buf : ℕ → ℝ) (freq : ℤ) (φ : ℝ) :
    (∀ j, j < 2 * buf_frames →
      (fill_sine buf freq φ).1 j =
        Real.sin (φ + phase_step freq * ((j / 2 : ℕ) : ℝ))) ∧
    (∀ j, 2 * buf_frames ≤ j → (fill_sine buf freq φ).1 j = buf j) := by
  constructor
  · intro j hj
    rw [fill_sine_apply, if_pos hj]
  · intro j hj
    rw [fill_sine_apply, if_neg (by omega)]

/-- Witness for C2 amended at frame index 0 and an untouched index. -/
theorem fill_sine_stereo_frame_effect_witness :
    (fill_sine (fun _ => 3) 440 0).1 0 =
      Real.sin (0 + phase_step 440 * ((0 / 2 : ℕ) : ℝ)) ∧
    (fill_sine (fun _ => 3) 440 0).1 1024 = 3 := by
  have h := fill_sine_stereo_frame_effect (fun _ => 3) 440 0
  exact ⟨h.1 0 (by norm_num [buf_frames]), h.2 1024 (by norm_num [buf_frames])⟩

/-- C3: the loader returns the empty array whenever the file fails to
load or the file is not mono 16-bit PCM at 44100 Hz (also on malloc
failure), and it returns a non-empty array only when the load succeeded
and the format matched exactly. -/
theorem siren_load_wav_error_handling (load : Option WavData) (mok : Bool) :
    (load = none → siren_load_wav load mok = []) ∧
    (∀ w, load = some w →
      (w.spec.freq ≠ 44100 ∨ w.spec.channels ≠ 1 ∨ w.spec.format ≠ AUDIO_S16LSB) →
      siren_load_wav load mok = []) ∧
    (siren_load_wav load mok ≠ [] →
      ∃ w, load = some w ∧
        w.spec.freq = 44100 ∧ w.spec.channels = 1 ∧ w.spec.format = AUDIO_S16LSB) := by
  refine ⟨?_, ?_, ?_⟩
  · intro h
    subst h
    rfl
  · intro w hw hbad
    subst hw
    rw [siren_load_wav, if_pos hbad]
  · intro hne
    match hload : load with
    | none =>
      subst hload
      exact absurd rfl hne
    | some w =>
      refine ⟨w, rfl, ?_⟩
      subst hload
      by_cases hbad : w.spec.freq ≠ 44100 ∨ w.spec.channels ≠ 1 ∨
          w.spec.format ≠ AUDIO_S16LSB
      · rw [siren_load_wav, if_pos hbad] at hne
        exact absurd rfl hne
      · push_neg at hbad
        exact hbad

/-- Witness for C3: a 22050 Hz mono file is rejected with an empty
array. -/
theorem siren_load_wav_error_handling_witness :
    siren_load_wav (some ⟨⟨22050, 1, AUDIO_S16LSB⟩, [0, 0]⟩) true = [] := by
  exact (siren_load_wav_error_handling
      (some ⟨⟨22050, 1, AUDIO_S16LSB⟩, [0, 0]⟩) true).2.1
    ⟨⟨22050, 1, AUDIO_S16LSB⟩, [0, 0]⟩ rfl (Or.inl (by norm_num))

/-- C4: on a successful mono 16-bit 44100 Hz load with byte length `L`,
the loader returns exactly `L / 2` rationals, element `i` being the
`i`-th little-endian signed 16-bit sample divided by 32768; every
returned sample lies in `[-1, 1)`. -/
theorem siren_load_wav_normalized (w : WavData)
    (hf : w.spec.freq = 44100) (hc : w.spec.channels = 1)
    (hm : w.spec.format = AUDIO_S16LSB) :
    (siren_load_wav (some w) true).length = w.bytes.length / 2 ∧
    (∀ i, i < w.bytes.length / 2 →
      (siren_load_wav (some w) true).getD i 0 =
        (sint16_of_bytes (w.bytes.getD (2 * i) 0) (w.bytes.getD (2 * i + 1) 0) : ℚ)
          / 32768) ∧
    (∀ x ∈ siren_load_wav (some w) true, -1 ≤ x ∧ x < 1) := by
  have hgood : ¬ (w.spec.freq ≠ 44100 ∨ w.spec.channels ≠ 1 ∨
      w.spec.format ≠ AUDIO_S16LSB) := by
    push_neg
    exact ⟨hf, hc, hm⟩
  have hres : siren_load_wav (some w) true =
      (List.range (w.bytes.length / 2)).map (fun i =>
        (sint16_of_bytes (w.bytes.getD (2 * i) 0) (w.bytes.getD (2 * i + 1) 0) : ℚ)
          / 32768) := by
    rw [siren_load_wav, if_neg hgood, if_neg (by simp)]
  have hbnd : ∀ s : ℤ, -32768 ≤ s → s < 32768 →
      -1 ≤ (s : ℚ) / 32768 ∧ (s : ℚ) / 32768 < 1 := by
    intro s h1 h2
    have hq1 : (-32768 : ℚ) ≤ (s : ℚ) := by exact_mod_cast h1
    have hq2 : (s : ℚ) < 32768 := by exact_mod_cast h2
    constructor
    · rw [le_div_iff₀ (by norm_num : (0 : ℚ) < 32768)]
      linarith
    · rw [div_lt_one (by norm_num : (0 : ℚ) < 32768)]
      exact hq2
  refine ⟨?_, ?_, ?_⟩
  · rw [hres, List.length_map, List.length_range]
  · intro i hi
    rw [hres]
    have hlen : i < ((List.range (w.bytes.length / 2)).map (fun i =>
        (sint16_of_bytes (w.bytes.getD (2 * i) 0) (w.bytes.getD (2 * i + 1) 0) : ℚ)
          / 32768)).length := by
      rw [List.length_map, List.length_range]
      exact hi
    rw [List.getD_eq_getElem _ _ hlen, List.getElem_map, List.getElem_range]
  · intro x hx
    rw [hres, List.mem_map] at hx
    obtain ⟨i, _, rfl⟩ := hx
    obtain ⟨hb1, hb2⟩ := sint16_of_bytes_bounds
      (w.bytes.getD (2 * i) 0) (w.bytes.getD (2 * i + 1) 0)
    exact hbnd _ hb1 hb2

/-- Witness for C4: a two-byte file holding the sample -32768 loads as the
single value -1. -/
theorem siren_load_wav_normalized_witness :
    (siren_load_wav
      (some ⟨⟨44100, 1, AUDIO_S16LSB⟩,
        [⟨0, by norm_num⟩, ⟨128, by norm_num⟩]⟩) true).length = 1 ∧
    (siren_load_wav
      (some ⟨⟨44100, 1, AUDIO_S16LSB⟩,
        [⟨0, by norm_num⟩, ⟨128, by norm_num⟩]⟩) true).getD 0 0 = -1 := by
  have h := siren_load_wav_normalized
    ⟨⟨44100, 1, AUDIO_S16LSB⟩, [⟨0, by norm_num⟩, ⟨128, by norm_num⟩]⟩ rfl rfl rfl
  constructor
  · rw [h.1]
    rfl
  · have h2 := h.2.1 0 (by norm_num)
    rw [h2]
    norm_num [sint16_of_bytes, List.getD]

/-- C5: from any queued byte count `q`, one iteration of the runtime loop
enqueues one `buf-size`-float buffer per check that found fewer than
`high-water = 16384` queued bytes — exactly `⌈(16384 − q) / 4096⌉` of
them — and then, the queued count having reached at least the high-water
mark, sleeps 1 ms before checking again. -/
theorem runtime_iteration_queueing (q : ℕ) :
    iter_events q =
      List.replicate (enq_count q) (AudioEvent.enq buf_size) ++ [AudioEvent.sleep 1] ∧
    inner_loop q = q + bytes_per_buffer * enq_count q ∧
    high_water ≤ inner_loop q ∧
    (enq_count q = 0 ↔ high_water ≤ q) := by
  refine ⟨?_, inner_loop_closed q, inner_loop_ge_high_water q, ?_⟩
  · rw [iter_events, inner_events_closed]
  · rw [enq_count_eq, high_water_eq]
    omega

/-- C6 counterexample: the claimed invariant (queue stays at or below the
high-water mark after every enqueue phase) is false. Starting from an
empty queue, a drain of 1 byte during the first sleep leaves 16383 bytes,
and the next enqueue phase then pushes the queue to 20479 bytes, above
`high-water = 16384`. -/
theorem queue_bound_claim_false :
    ¬ (∀ (ds : List ℕ), ∀ x ∈ phase_ends 0 ds,
        bytes_per_buffer ≤ x ∧ x ≤ high_water) := by
  intro hclaim
  have h0 : inner_loop 0 = 16384 := by
    rw [inner_loop_closed, enq_count_eq, bytes_per_buffer_eq]
  have h1 : inner_loop 16383 = 20479 := by
    rw [inner_loop_closed, enq_count_eq, bytes_per_buffer_eq]
  have hmem : (20479 : ℕ) ∈ phase_ends 0 [1, 0] := by
    rw [phase_ends, phase_ends, h0]
    norm_num [h1]
  have := (hclaim [1, 0] 20479 hmem).2
  rw [high_water_eq] at this
  omega

/-- C6 amended: after the enqueue phase of every iteration (starting from
an empty queue, with the device draining arbitrary amounts during the
sleeps), the queue holds at least the high-water mark of 16384 bytes — in
particular at least one buffer of `bytes-per-buffer = 4096` bytes — and
strictly fewer than `high-water + bytes-per-buffer = 20480` bytes; the
high-water mark is the threshold at which enqueueing stops, and can be
exceeded by up to one buffer minus one byte. -/
theorem queue_depth_bounds (ds : List ℕ) :
    ∀ x ∈ phase_ends 0 ds,
      bytes_per_buffer ≤ x ∧ high_water ≤ x ∧ x < high_water + bytes_per_buffer := by
  intro x hx
  have h := phase_ends_mem ds 0 (by rw [high_water_eq, bytes_per_buffer_eq]; omega) x hx
  refine ⟨?_, h.1, h.2⟩
  rw [bytes_per_buffer_eq]
  rw [high_water_eq] at h
  omega

/-- Witness for C6 amended: the run with a single iteration and no drain
reaches exactly 16384 queued bytes after its enqueue phase. -/
theorem queue_depth_bounds_witness :
    (16384 : ℕ) ∈ phase_ends 0 [0] ∧
    bytes_per_buffer ≤ 16384 ∧ high_water ≤ 16384 ∧
    (16384 : ℕ) < high_water + bytes_per_buffer := by
  have h0 : inner_loop 0 = 16384 := by
    rw [inner_loop_closed, enq_count_eq, bytes_per_buffer_eq]
  have hmem : (16384 : ℕ) ∈ phase_ends 0 [0] := by
    rw [phase_ends, phase_ends, h0]
    norm_num
  exact ⟨hmem, queue_depth_bounds [0] 16384 hmem⟩

/-- C7: over the exact reals, joining any number of consecutive sine fills
that thread the returned phase yields `sin (φ₀ + k·Δ)` at every global
sample index `k`, for every frequency `f ≥ 0` and starting phase
`φ₀ ≥ 0`; in particular consecutive joined samples (including the ones
astride each tick boundary) differ by at most one phase step `Δ`. -/
theorem sine_ticks_phase_continuity (freq : ℤ) (φ0 : ℝ)
    (hf : 0 ≤ freq) (h0 : 0 ≤ φ0) :
    (∀ k : ℕ, cat_sample freq φ0 k = Real.sin (φ0 + phase_step freq * (k : ℝ))) ∧
    (∀ k : ℕ, 1 ≤ k →
      |cat_sample freq φ0 k - cat_sample freq φ0 (k - 1)| ≤ phase_step freq) := by
  have hbf : 0 < buf_frames := by norm_num [buf_frames]
  have hmain : ∀ k : ℕ, cat_sample freq φ0 k =
      Real.sin (φ0 + phase_step freq * (k : ℝ)) := by
    intro k
    unfold cat_sample
    obtain ⟨hpos, m, hm⟩ := phase_seq_normal_form freq φ0 hf h0 (k / buf_frames)
    have hidx : 2 * (k % buf_frames) < 2 * buf_frames := by
      have := Nat.mod_lt k hbf
      omega
    have hdiv : (2 * (k % buf_frames)) / 2 = k % buf_frames := by omega
    rw [fill_sine_apply, if_pos hidx, hdiv, hm]
    have hsplit : φ0 + phase_step freq * ((buf_frames : ℝ) * ((k / buf_frames : ℕ) : ℝ)) -
        2 * Real.pi * (m : ℝ) + phase_step freq * ((k % buf_frames : ℕ) : ℝ) =
        (φ0 + phase_step freq * (k : ℝ)) - (m : ℝ) * (2 * Real.pi) := by
      have hk : (buf_frames : ℝ) * ((k / buf_frames : ℕ) : ℝ) +
          ((k % buf_frames : ℕ) : ℝ) = (k : ℝ) := by
        rw [← Nat.cast_mul, ← Nat.cast_add, Nat.div_add_mod]
      calc φ0 + phase_step freq * ((buf_frames : ℝ) * ((k / buf_frames : ℕ) : ℝ)) -
          2 * Real.pi * (m : ℝ) + phase_step freq * ((k % buf_frames : ℕ) : ℝ)
          = φ0 + phase_step freq * ((buf_frames : ℝ) * ((k / buf_frames : ℕ) : ℝ) +
            ((k % buf_frames : ℕ) : ℝ)) - (m : ℝ) * (2 * Real.pi) := by ring
        _ = (φ0 + phase_step freq * (k : ℝ)) - (m : ℝ) * (2 * Real.pi) := by rw [hk]
    rw [hsplit, Real.sin_sub_int_mul_two_pi]
  refine ⟨hmain, ?_⟩
  intro k hk
  rw [hmain, hmain]
  have hcast : ((k - 1 : ℕ) : ℝ) = (k : ℝ) - 1 := by
    push_cast [Nat.cast_sub hk]
    norm_num
  rw [hcast]
  set a := φ0 + phase_step freq * (k : ℝ) with ha
  set b := φ0 + phase_step freq * ((k : ℝ) - 1) with hb
  have hab : a - b = phase_step freq := by rw [ha, hb]; ring
  have hbound : |Real.sin a - Real.sin b| ≤ |a - b| := by
    rw [Real.sin_sub_sin]
    have h1 : |Real.sin ((a - b) / 2)| ≤ |(a - b) / 2| := Real.abs_sin_le_abs
    have h2 : |Real.cos ((a + b) / 2)| ≤ 1 := Real.abs_cos_le_one _
    calc |2 * Real.sin ((a - b) / 2) * Real.cos ((a + b) / 2)|
        = 2 * |Real.sin ((a - b) / 2)| * |Real.cos ((a + b) / 2)| := by
          rw [abs_mul, abs_mul, abs_two]
      _ ≤ 2 * |(a - b) / 2| * 1 := by
          apply mul_le_mul _ h2 (abs_nonneg _) (by positivity)
          exact mul_le_mul_of_nonneg_left h1 (by norm_num)
      _ = |a - b| := by
          rw [mul_one, abs_div, abs_two]
          ring
  rw [hab] at hbound
  calc |Real.sin a - Real.sin b| ≤ |phase_step freq| := hbound
    _ = phase_step freq := abs_of_nonneg (phase_step_nonneg hf)

/-- Witness for C7 at `freq = 440`, `φ₀ = 0`, samples 512 and 511 (the
first tick boundary). -/
theorem sine_ticks_phase_continuity_witness :
    (0 : ℤ) ≤ 440 ∧ (0 : ℝ) ≤ 0 ∧
    cat_sample 440 0 512 = Real.sin (0 + phase_step 440 * (512 : ℝ)) ∧
    |cat_sample 440 0 512 - cat_sample 440 0 511| ≤ phase_step 440 := by
  have h := sine_ticks_phase_continuity 440 0 (by norm_num) (le_refl 0)
  exact ⟨by norm_num, le_refl 0, h.1 512, by simpa using h.2 512 (by norm_num)⟩

/-- C8: every buffer the runtime enqueues carries exactly
`buf-size = 1024` floats; the two channel samples of each interleaved
frame are equal (order L,R with L = R), and every enqueued sample lies in
`[-1, 1]`. -/
theorem runtime_enqueued_format (init : ℕ → ℝ) (n : ℕ) :
    (runtime_enqueued init n).2 = 1024 ∧
    (∀ j, j < buf_size →
      -1 ≤ (runtime_enqueued init n).1 j ∧ (runtime_enqueued init n).1 j ≤ 1) ∧
    (∀ i, i < buf_frames →
      (runtime_enqueued init n).1 (2 * i) = (runtime_enqueued init n).1 (2 * i + 1)) := by
  have hbuf : (runtime_enqueued init n).1 =
      (fill_sine (runtime_state init n).1 440 (runtime_state init n).2).1 := by
    rw [runtime_enqueued, runtime_state]
  refine ⟨by rw [runtime_enqueued]; norm_num [buf_size, buf_frames, channels], ?_, ?_⟩
  · intro j hj
    rw [hbuf, fill_sine_apply, if_pos (by rw [← buf_size_eq]; exact hj)]
    exact ⟨Real.neg_one_le_sin _, Real.sin_le_one _⟩
  · intro i hi
    have hd1 : (2 * i) / 2 = i := by omega
    have hd2 : (2 * i + 1) / 2 = i := by omega
    rw [hbuf, fill_sine_apply, fill_sine_apply, if_pos (by omega), if_pos (by omega),
      hd1, hd2]

/-- Witness for C8 at the first enqueue with a zero-initialised buffer. -/
theorem runtime_enqueued_format_witness :
    (runtime_enqueued (fun _ => 0) 0).2 = 1024 ∧
    -1 ≤ (runtime_enqueued (fun _ => 0) 0).1 0 ∧
    (runtime_enqueued (fun _ => 0) 0).1 0 ≤ 1 ∧
    (runtime_enqueued (fun _ => 0) 0).1 0 = (runtime_enqueued (fun _ => 0) 0).1 1 := by
  have h := runtime_enqueued_format (fun _ => 0) 0
  have hj : (0 : ℕ) < buf_size := by norm_num [buf_size, buf_frames, channels]
  have hpair := h.2.2 0 (by norm_num [buf_frames])
  norm_num at hpair
  exact ⟨h.1, (h.2.1 0 hj).1, (h.2.1 0 hj).2, hpair⟩

/-- C9 counterexample: the byte conversion is not exactly `4·len` for
every `len ≥ 0`; at `len = 2^30` (a representable C `int`) the `Uint32`
cast wraps and 0 bytes are enqueued. -/
theorem siren_queue_audio_bytes_wraps :
    siren_queue_audio_bytes (2 ^ 30) = 0 ∧ (0 : ℤ) ≠ 4 * 2 ^ 30 := by
  constructor
  · rw [siren_queue_audio_bytes]
    norm_num
  · norm_num

/-- C9 amended: `siren_queue_audio` takes a count of floats, never of
bytes, and the float-to-byte conversion happens inside the binding: for
every `len` with `0 ≤ len < 2^30` it enqueues exactly
`len * sizeof(float) = 4·len` bytes; for larger counts the `Uint32` cast
wraps the byte count modulo `2^32`. -/
theorem siren_queue_audio_bytes_exact (len : ℤ)
    (h0 : 0 ≤ len) (h1 : len < 2 ^ 30) :
    siren_queue_audio_bytes len = 4 * len := by
  rw [siren_queue_audio_bytes]
  omega

/-- Witness for C9 amended: the runtime call passes `buf-size = 1024`
floats and 4096 bytes reach the device. -/
theorem siren_queue_audio_bytes_exact_witness :
    (0 : ℤ) ≤ 1024 ∧ (1024 : ℤ) < 2 ^ 30 ∧
    siren_queue_audio_bytes 1024 = 4 * 1024 := by
  exact ⟨by norm_num, by norm_num,
    siren_queue_audio_bytes_exact 1024 (by norm_num) (by norm_num)⟩

/-- C10: at frequency 0 the sine fill writes the constant `sin φ₀` into
every position it touches (indices below `2 * buf-frames`) and returns the
incoming phase unchanged, for `φ₀ ∈ [0, 2π)`. -/
theorem fill_sine_zero_freq (buf : ℕ → ℝ) (φ : ℝ)
    (h0 : 0 ≤ φ) (h2 : φ < 2 * Real.pi) :
    (∀ j, j < 2 * buf_frames → (fill_sine buf 0 φ).1 j = Real.sin φ) ∧
    (fill_sine buf 0 φ).2 = φ := by
  have hstep : phase_step 0 = 0 := by
    unfold phase_step
    norm_num
  constructor
  · intro j hj
    rw [fill_sine_apply, if_pos hj, hstep]
    norm_num
  · rw [fill_sine_phase, hstep]
    simpa using Float_mod_self_of_lt φ h0 h2

/-- Witness for C10 at `φ₀ = 1`, zero initial buffer. -/
theorem fill_sine_zero_freq_witness :
    (0 : ℝ) ≤ 1 ∧ (1 : ℝ) < 2 * Real.pi ∧
    (fill_sine (fun _ => 0) 0 1).1 0 = Real.sin 1 ∧
    (fill_sine (fun _ => 0) 0 1).2 = 1 := by
  have h2 : (1 : ℝ) < 2 * Real.pi := by
    have := Real.pi_gt_three
    linarith
  have h := fill_sine_zero_freq (fun _ => 0) 1 (by norm_num) h2
  exact ⟨by norm_num, h2, h.1 0 (by norm_num [buf_frames]), h.2⟩
